import Mathlib

/-!
Verification of the lettersmith document-pipeline core against its
natural-language specification.

The Rust sources are shallowly embedded: strings are Lean `String`
(operated on through their character lists), paths are strings whose
normal components are recovered by splitting on the slash, JSON values
are an inductive `Json` whose objects are association lists (serde_json
maps are modelled as insertion-ordered association lists; none of the
properties proved here depend on object key order), and `HashMap`s that
the code only ever reads by key are association lists as well.
Timestamps are modelled as calendar dates (year/month/day), which is
what the permalink formatter reads and which order-embeds into the
chronological order used by the sort keys.  Rust character-level
operations (`to_lowercase`, `trim`, `char::is_whitespace`) are modelled
on ASCII, which covers every input appearing in the claims.
Functions whose Rust originals recurse on a shrinking-but-not-structural
argument (regex scanners, `String::replace`) take an explicit fuel that
their wrappers instantiate with the input length, so that every
definition evaluates inside the kernel.
-/

namespace Lettersmith

/-! ## Character-level text utilities (src/text.rs) -/

/-- ASCII model of Rust `char::is_whitespace` (the inputs of interest are
ASCII; Rust uses the Unicode property). -/
def isWs (c : Char) : Bool :=
  c = ' ' ∨ c = '\t' ∨ c = '\n' ∨ c = '\r'

/-- Drop whitespace from the front of a character list. -/
def dropWs (l : List Char) : List Char := l.dropWhile isWs

/-- Model of Rust `str::trim`: drop whitespace from both ends. -/
def trimL (l : List Char) : List Char :=
  ((dropWs l).reverse.dropWhile isWs).reverse

/-- String wrapper for `trimL`, the model of Rust `str::trim`. -/
def trimString (s : String) : String := String.mk (trimL s.data)

/-- ASCII lowercase map, as an association list so that all of its
properties are decidable.  Models Rust `str::to_lowercase` on the ASCII
inputs the claims use. -/
def lowerPairs : List (Char × Char) :=
  [('A', 'a'), ('B', 'b'), ('C', 'c'), ('D', 'd'), ('E', 'e'), ('F', 'f'),
   ('G', 'g'), ('H', 'h'), ('I', 'i'), ('J', 'j'), ('K', 'k'), ('L', 'l'),
   ('M', 'm'), ('N', 'n'), ('O', 'o'), ('P', 'p'), ('Q', 'q'), ('R', 'r'),
   ('S', 's'), ('T', 't'), ('U', 'u'), ('V', 'v'), ('W', 'w'), ('X', 'x'),
   ('Y', 'y'), ('Z', 'z')]

/-- Lowercase a single character (ASCII). -/
def toLowerC (c : Char) : Char := ((lowerPairs.lookup c).getD c)

/-- Lowercase a character list. -/
def lowerL (l : List Char) : List Char := l.map toLowerC

/-- Replace a space by a dash (the character step of
`str::replace(' ', "-")`). -/
def spaceToDash (c : Char) : Char := if c = ' ' then '-' else c

/-- Replace a space by an underscore (the character step of
`str::replace(' ', "_")` used by `to_tag`). -/
def spaceToUnderscore (c : Char) : Char := if c = ' ' then '_' else c

/-- The character class removed by `remove_non_slug_chars`
(src/text.rs `NON_SLUG_CHARS`): `[](){}<>:,;?!^&%$#@'"|*~`.
The apostrophe, double quote and braces are written through their
code points. -/
def nonSlugChars : List Char :=
  ['[', ']', '(', ')', Char.ofNat 123, Char.ofNat 125, '<', '>', ':', ',',
   ';', '?', '!', '^', '&', '%', '$', '#', '@', Char.ofNat 39,
   Char.ofNat 34, '|', '*', '~']

/-- Membership in the removed character class. -/
def isNonSlug (c : Char) : Bool := nonSlugChars.contains c

/-- Model of `remove_non_slug_chars` (src/text.rs): delete every
character of the `NON_SLUG_CHARS` class. -/
def remove_non_slug_chars_L (l : List Char) : List Char :=
  l.filter (fun c => !(isNonSlug c))

/-- String wrapper for `remove_non_slug_chars`. -/
def remove_non_slug_chars (s : String) : String :=
  String.mk (remove_non_slug_chars_L s.data)

/-- List-level `to_slug` (src/text.rs): trim, lowercase, spaces to
dashes, remove non-slug characters, in that order. -/
def toSlugL (l : List Char) : List Char :=
  remove_non_slug_chars_L ((lowerL (trimL l)).map spaceToDash)

/-- Model of `to_slug` (src/text.rs). -/
def to_slug (s : String) : String := String.mk (toSlugL s.data)

/-- Model of `to_tag` (src/tags.rs): like `to_slug` but spaces become
underscores. -/
def to_tag (s : String) : String :=
  String.mk (remove_non_slug_chars_L ((lowerL (trimL s.data)).map spaceToUnderscore))

/-! ### Facts about `to_slug` needed for the idempotence claim -/

theorem lookup_mem {ps : List (Char × Char)} {c v : Char}
    (h : ps.lookup c = some v) : (c, v) ∈ ps := by
  induction ps with
  | nil => simp [List.lookup] at h
  | cons p ps ih =>
    obtain ⟨k, b⟩ := p
    rw [List.lookup_cons] at h
    cases hck : c == k with
    | true =>
      rw [hck] at h
      simp only [Option.some.injEq] at h
      have : c = k := by exact eq_of_beq hck
      subst this h
      exact List.mem_cons_self _ _
    | false =>
      rw [hck] at h
      exact List.mem_cons_of_mem _ (ih h)

theorem toLowerC_fix (c : Char) : toLowerC (toLowerC c) = toLowerC c := by
  unfold toLowerC
  cases h : lowerPairs.lookup c with
  | none => simp [h]
  | some v =>
    have hv : ∀ p ∈ lowerPairs, lowerPairs.lookup p.2 = none := by decide
    have := hv (c, v) (lookup_mem h)
    simp [this]

theorem toLowerC_spaceToDash_fix (c : Char) :
    toLowerC (spaceToDash (toLowerC c)) = spaceToDash (toLowerC c) := by
  unfold spaceToDash
  by_cases h : toLowerC c = ' '
  · simp [h]; decide
  · simp [h, toLowerC_fix]

theorem spaceToDash_ne_space (c : Char) : spaceToDash c ≠ ' ' := by
  unfold spaceToDash
  by_cases h : c = ' '
  · rw [if_pos h]; decide
  · rw [if_neg h]; exact h

/-- Characters of the trimmed list are characters of the list. -/
theorem mem_trimL {c : Char} {l : List Char} (h : c ∈ trimL l) : c ∈ l := by
  unfold trimL dropWs at h
  rw [List.mem_reverse] at h
  have h1 : c ∈ (l.dropWhile isWs).reverse :=
    (List.dropWhile_sublist _).subset h
  rw [List.mem_reverse] at h1
  exact (List.dropWhile_sublist _).subset h1

/-- Mapping a function that fixes every member of a list is the
identity on it. -/
theorem map_fix {f : Char → Char} {l : List Char}
    (h : ∀ c ∈ l, f c = c) : l.map f = l := by
  induction l with
  | nil => rfl
  | cons a l ih =>
    simp only [List.map_cons]
    rw [h a (List.mem_cons_self a l), ih (fun c hc => h c (List.mem_cons_of_mem a hc))]

/-- Every character of a slug is a fixed point of the lowercase map, is
not a space, and is not a removed character. -/
theorem mem_toSlugL {c : Char} {l : List Char} (h : c ∈ toSlugL l) :
    toLowerC c = c ∧ c ≠ ' ' ∧ isNonSlug c = false := by
  unfold toSlugL remove_non_slug_chars_L lowerL at h
  have h1 := List.mem_filter.mp h
  rw [List.map_map] at h1
  obtain ⟨e, -, he⟩ := List.mem_map.mp h1.1
  simp only [Function.comp] at he
  refine ⟨?_, ?_, ?_⟩
  · rw [← he]; exact toLowerC_spaceToDash_fix e
  · rw [← he]; exact spaceToDash_ne_space (toLowerC e)
  · simpa using h1.2

/-- Re-sluggifying a slug only trims it: the lowercase map, the space
replacement and the character removal are all the identity on a slug,
so the second pass reduces to `trim`. -/
theorem toSlugL_toSlugL (l : List Char) :
    toSlugL (toSlugL l) = trimL (toSlugL l) := by
  have hmem : ∀ c ∈ trimL (toSlugL l),
      toLowerC c = c ∧ c ≠ ' ' ∧ isNonSlug c = false :=
    fun c hc => mem_toSlugL (mem_trimL hc)
  show remove_non_slug_chars_L ((lowerL (trimL (toSlugL l))).map spaceToDash)
      = trimL (toSlugL l)
  rw [show lowerL (trimL (toSlugL l)) = trimL (toSlugL l) from
        map_fix (fun c hc => (hmem c hc).1)]
  rw [show (trimL (toSlugL l)).map spaceToDash = trimL (toSlugL l) from
        map_fix (fun c hc => by unfold spaceToDash; simp [(hmem c hc).2.1])]
  apply List.filter_eq_self.mpr
  intro c hc
  simp [(hmem c hc).2.2]

/-! ### Claim C10 -/

/-- C10, counterexample: `to_slug` is not idempotent.  Removing the
non-slug character `!` exposes a tab at the end of the slug, which the
`trim` of a second pass removes: `to_slug "a\t!" = "a\t"` but
`to_slug "a\t" = "a"`. -/
theorem c10_to_slug_not_idempotent :
    to_slug (to_slug "a\t!") ≠ to_slug "a\t!" := by
  decide

/-- C10, amended: re-sluggification only trims.  For every string `s`,
`to_slug (to_slug s) = (to_slug s).trim()`, so `to_slug` is idempotent
exactly on the strings whose slug has no residual leading or trailing
whitespace (in particular on all slugs of space-separated words). -/
theorem c10_to_slug_resluggify_trims (s : String) :
    to_slug (to_slug s) = trimString (to_slug s) :=
  congrArg String.mk (toSlugL_toSlugL s.data)

/-! ## JSON values (serde_json `Value`, src/json.rs)

Objects are association lists of key/value pairs; `serde_json` stores
them in a `BTreeMap`, whose iteration order never matters for the
properties proved here (the code only reads single keys). -/

inductive Json where
  | null : Json
  | bool (b : Bool) : Json
  | num (n : Int) : Json
  | str (s : String) : Json
  | arr (items : List Json) : Json
  | obj (entries : List (String × Json)) : Json

mutual

/-- Structural equality test for `Json` (the nested inductive does not
support derived `DecidableEq` here). -/
def Json.beq : Json → Json → Bool
  | .null, .null => true
  | .bool a, .bool b => a == b
  | .num a, .num b => a == b
  | .str a, .str b => a == b
  | .arr a, .arr b => Json.beqList a b
  | .obj a, .obj b => Json.beqEntries a b
  | _, _ => false

/-- Equality test for `Json` arrays. -/
def Json.beqList : List Json → List Json → Bool
  | [], [] => true
  | a :: as, b :: bs => Json.beq a b && Json.beqList as bs
  | _, _ => false

/-- Equality test for `Json` object entry lists. -/
def Json.beqEntries : List (String × Json) → List (String × Json) → Bool
  | [], [] => true
  | (k, v) :: as, (k2, v2) :: bs => k == k2 && Json.beq v v2 && Json.beqEntries as bs
  | _, _ => false

end

mutual

theorem Json.beq_iff : ∀ (a b : Json), Json.beq a b = true ↔ a = b
  | .null, .null => by simp [Json.beq]
  | .null, .bool _ => by simp [Json.beq]
  | .null, .num _ => by simp [Json.beq]
  | .null, .str _ => by simp [Json.beq]
  | .null, .arr _ => by simp [Json.beq]
  | .null, .obj _ => by simp [Json.beq]
  | .bool _, .null => by simp [Json.beq]
  | .bool a, .bool b => by simp [Json.beq]
  | .bool _, .num _ => by simp [Json.beq]
  | .bool _, .str _ => by simp [Json.beq]
  | .bool _, .arr _ => by simp [Json.beq]
  | .bool _, .obj _ => by simp [Json.beq]
  | .num _, .null => by simp [Json.beq]
  | .num _, .bool _ => by simp [Json.beq]
  | .num a, .num b => by simp [Json.beq]
  | .num _, .str _ => by simp [Json.beq]
  | .num _, .arr _ => by simp [Json.beq]
  | .num _, .obj _ => by simp [Json.beq]
  | .str _, .null => by simp [Json.beq]
  | .str _, .bool _ => by simp [Json.beq]
  | .str _, .num _ => by simp [Json.beq]
  | .str a, .str b => by simp [Json.beq]
  | .str _, .arr _ => by simp [Json.beq]
  | .str _, .obj _ => by simp [Json.beq]
  | .arr _, .null => by simp [Json.beq]
  | .arr _, .bool _ => by simp [Json.beq]
  | .arr _, .num _ => by simp [Json.beq]
  | .arr _, .str _ => by simp [Json.beq]
  | .arr a, .arr b => by
      simp only [Json.beq]
      rw [Json.beqList_iff a b]
      simp
  | .arr _, .obj _ => by simp [Json.beq]
  | .obj _, .null => by simp [Json.beq]
  | .obj _, .bool _ => by simp [Json.beq]
  | .obj _, .num _ => by simp [Json.beq]
  | .obj _, .str _ => by simp [Json.beq]
  | .obj _, .arr _ => by simp [Json.beq]
  | .obj a, .obj b => by
      simp only [Json.beq]
      rw [Json.beqEntries_iff a b]
      simp

theorem Json.beqList_iff : ∀ (a b : List Json), Json.beqList a b = true ↔ a = b
  | [], [] => by simp [Json.beqList]
  | [], _ :: _ => by simp [Json.beqList]
  | _ :: _, [] => by simp [Json.beqList]
  | a :: as, b :: bs => by
      simp only [Json.beqList, Bool.and_eq_true]
      rw [Json.beq_iff a b, Json.beqList_iff as bs]
      simp

theorem Json.beqEntries_iff : ∀ (a b : List (String × Json)), Json.beqEntries a b = true ↔ a = b
  | [], [] => by simp [Json.beqEntries]
  | [], _ :: _ => by simp [Json.beqEntries]
  | _ :: _, [] => by simp [Json.beqEntries]
  | (k, v) :: as, (k2, v2) :: bs => by
      simp only [Json.beqEntries, Bool.and_eq_true]
      rw [Json.beq_iff v v2, Json.beqEntries_iff as bs]
      simp [and_assoc]

end

instance : DecidableEq Json :=
  fun a b => decidable_of_iff (Json.beq a b = true) (Json.beq_iff a b)

mutual

/-- Computable size of a `Json` value, used as merge fuel. -/
def jsize : Json → Nat
  | .null => 1
  | .bool _ => 1
  | .num _ => 1
  | .str _ => 1
  | .arr items => 1 + jsizeList items
  | .obj entries => 1 + jsizeEntries entries

/-- Size of a `Json` array body. -/
def jsizeList : List Json → Nat
  | [] => 0
  | j :: rest => jsize j + jsizeList rest + 1

/-- Size of a `Json` object entry list. -/
def jsizeEntries : List (String × Json) → Nat
  | [] => 0
  | (_, v) :: rest => jsize v + jsizeEntries rest + 1

end

/-- Model of serde_json `Value::get` on objects (`None` on any other
variant). -/
def Json.get (j : Json) (key : String) : Option Json :=
  match j with
  | .obj entries => (entries.lookup key)
  | _ => none

/-- Model of serde_json `Value::as_str` (`Some` only on strings). -/
def Json.as_str (j : Json) : Option String :=
  match j with
  | .str s => some s
  | _ => none

/-- Remove a key from an object entry list (Rust `Map::remove`). -/
def removeKey (key : String) : List (String × Json) → List (String × Json)
  | [] => []
  | (k, v) :: rest =>
    if k = key then removeKey key rest else (k, v) :: removeKey key rest

/-- Replace the value at a key, or append the pair when absent
(Rust `Map::insert` through `entry().or_insert`). -/
def upsert (key : String) (val : Json) : List (String × Json) → List (String × Json)
  | [] => [(key, val)]
  | (k, v) :: rest =>
    if k = key then (k, val) :: rest else (k, v) :: upsert key val rest

/-- Value stored at a key, or `null` (Rust `entry(k).or_insert(Null)`). -/
def getEntryD (entries : List (String × Json)) (key : String) : Json :=
  (entries.lookup key).getD Json.null

mutual

/-- RFC-7396-style merge of src/json.rs `merge`, written with a fuel
that the wrapper instantiates with `sizeOf` of the patch so that the
definition evaluates inside the kernel.  Null patch values delete keys;
object patch values merge recursively; anything else overwrites. -/
def mergeFuel : Nat → Json → Json → Json
  | 0, _, b => b
  | fuel + 1, a, b =>
    match a, b with
    | .obj ma, .obj mb => .obj (mergeEntriesFuel fuel ma mb)
    | _, _ => b

/-- Entry loop of `merge` (the `for (k, v) in b` body). -/
def mergeEntriesFuel : Nat → List (String × Json) → List (String × Json) → List (String × Json)
  | 0, ma, _ => ma
  | _ + 1, ma, [] => ma
  | fuel + 1, ma, (k, v) :: rest =>
    if v = Json.null then mergeEntriesFuel fuel (removeKey k ma) rest
    else mergeEntriesFuel fuel (upsert k (mergeFuel fuel (getEntryD ma k) v) ma) rest

end

/-- Model of src/json.rs `merge` (RFC 7396 merge patch). -/
def mergeJson (a b : Json) : Json := mergeFuel (jsize b) a b

/-! ## The document data model (src/doc.rs, src/stub.rs)

Timestamps (`chrono::DateTime<Utc>`) are modelled as calendar dates;
their lexicographic comparison coincides with the chronological order
the sort keys use, and the permalink formatter reads exactly the
year/month/day components kept here. -/

structure Date where
  year : Nat
  month : Nat
  day : Nat
deriving DecidableEq

/-- Model of `Doc` (src/doc.rs).  `PathBuf` fields are strings. -/
structure Doc where
  id_path : String
  output_path : String
  input_path : Option String := none
  template_path : Option String := none
  created : Date := ⟨1970, 1, 1⟩
  modified : Date := ⟨1970, 1, 1⟩
  title : String := ""
  summary : String := ""
  content : String := ""
  meta : Json := Json.null
deriving DecidableEq

/-- Model of `Stub` (src/stub.rs). -/
structure Stub where
  id_path : String
  output_path : String
  created : Date
  modified : Date
  title : String
  summary : String
deriving DecidableEq

/-- Accumulating scanner splitting a character list into its
whitespace-separated words (Rust `split_whitespace`). -/
def wordsGo (acc : List Char) : List Char → List String
  | [] => if acc.isEmpty then [] else [String.mk acc.reverse]
  | c :: cs =>
    if isWs c then
      if acc.isEmpty then wordsGo [] cs else String.mk acc.reverse :: wordsGo [] cs
    else wordsGo (c :: acc) cs

/-- Whitespace-separated words of a character list. -/
def wordsOf (l : List Char) : List String := wordsGo [] l

/-- Model of `truncate` (src/text.rs): return the trimmed text when it
fits, otherwise keep the first `maxChars - 1` characters, drop the last
whitespace-separated word, and append the suffix.  Rust mixes byte and
character counts; both are modelled as character counts (its inputs in
the claims are ASCII). -/
def truncate (text : String) (maxChars : Nat) (suffix : String) : String :=
  let stripped := trimString text
  if stripped.data.length ≤ maxChars then stripped
  else String.intercalate " " ((wordsOf (text.data.take (maxChars - 1))).dropLast) ++ suffix

/-- Model of `truncate_280` (src/text.rs). -/
def truncate_280 (text : String) : String := truncate text 280 "…"

/-- Modelled from the spec: `Doc::summary_280` is called by
`Stub::from<&Doc>` (src/stub.rs) but its definition is not under src/.
Per the data-model section of the spec, a stub carries the document's
summary, which "may be auto-derived from content if unset", truncated
like the other 280-character summaries.  None of the claims proved here
depend on its exact value. -/
def Doc.summary_280 (doc : Doc) : String :=
  truncate_280 (if doc.summary = "" then doc.content else doc.summary)

/-- Model of `Stub::from<&Doc>` (src/stub.rs). -/
def Stub.ofDoc (doc : Doc) : Stub :=
  { id_path := doc.id_path
    output_path := doc.output_path
    created := doc.created
    modified := doc.modified
    title := doc.title
    summary := doc.summary_280 }

/-- Model of `Doc::merge_meta` (src/doc.rs). -/
def Doc.merge_meta (doc : Doc) (patch : Json) : Doc :=
  { doc with meta := mergeJson doc.meta patch }

/-! ## Token templates (src/token_template.rs)

The Rust `render` iterates a `HashMap` in arbitrary order; the parts
maps are modelled as association lists, folded in insertion order.
Because the program's order is arbitrary, no theorem below relies on a
particular fold order: every render either has a template without any
colon (each replacement pass is then the identity, whatever the order)
or appears with the identical parts list on both sides of an
equation. -/

/-- Fueled engine of Rust `String::replace`: replace every
non-overlapping occurrence of `pat`, scanning left to right.  The
wrapper hands it the input length as fuel; each step consumes at least
one character whenever `pat` is nonempty. -/
def replaceGo (pat rep : List Char) : Nat → List Char → List Char
  | 0, l => l
  | _ + 1, [] => []
  | fuel + 1, c :: cs =>
    if pat.isPrefixOf (c :: cs) then
      rep ++ replaceGo pat rep fuel ((c :: cs).drop pat.length)
    else c :: replaceGo pat rep fuel cs

/-- Model of Rust `str::replace` for a nonempty pattern (every pattern
the embedded code builds starts with a colon, hence is nonempty). -/
def replaceAll (s pat rep : String) : String :=
  if pat.data = [] then s
  else String.mk (replaceGo pat.data rep.data (s.data.length + 1) s.data)

/-- Model of `render` (src/token_template.rs): for each part
`(key, value)`, replace every occurrence of `":" ++ key` — the code
formats the needle as `format!(":{}", key)` — by `value`.
Substitutions not present in the map are left untouched.  The source
iterates a `HashMap`, so when needles overlap (`:yy` is a prefix of
`:yyyy`) the program's output depends on the arbitrary iteration
order; the model fixes insertion order, and no theorem below draws a
conclusion that depends on that choice. -/
def render (template : String) (parts : List (String × String)) : String :=
  parts.foldl (fun result kv => replaceAll result (String.mk (':' :: kv.1.data)) kv.2) template

/-! ## Taxonomy indexing and related lookup (src/tags.rs) -/

/-- The `HashMap<String, Vec<Stub>>` index, as an association list with
unique keys (reads are by single key, so iteration order is unused). -/
abbrev TagIndex := List (String × List Stub)

/-- Bucket for a key: `index.get(key).into_iter().flatten()`. -/
def indexGetD (index : TagIndex) (key : String) : List Stub :=
  (index.lookup key).getD []

/-- Model of `tax_index.entry(k).or_insert_with(Vec::new).push(stub)`:
append to the existing bucket, or create a singleton bucket. -/
def pushStub (index : TagIndex) (key : String) (s : Stub) : TagIndex :=
  match index with
  | [] => [(key, [s])]
  | (k, v) :: rest =>
    if k = key then (k, v ++ [s]) :: rest else (k, v) :: pushStub rest key s

/-- Model of Rust `Vec::dedup`: remove consecutive equal elements.
(Rust keeps the first element of each run; since the elements of a run
are equal, keeping the last — which is what this structural recursion
does — yields the same list.) -/
def dedupConsecutive {α : Type} [DecidableEq α] : List α → List α
  | [] => []
  | [a] => [a]
  | a :: b :: rest =>
    if a = b then dedupConsecutive (b :: rest)
    else a :: dedupConsecutive (b :: rest)

/-- Model of `get_union_for_index_keys` (src/tags.rs): concatenate the
buckets of the given keys in key order, then `Vec::dedup` the result. -/
def get_union_for_index_keys (index : TagIndex) (keys : List String) : List Stub :=
  dedupConsecutive (keys.flatMap (fun key => indexGetD index key))

/-- Model of `Doc::get_meta_taxonomy` (src/tags.rs): read the array at
the meta key, keep its string elements, normalize each with `to_tag`,
and `Vec::dedup` the result. -/
def Doc.get_meta_taxonomy (doc : Doc) (key : String) : Option (List String) :=
  match doc.meta.get key with
  | some (.arr tagValues) =>
      some (dedupConsecutive ((tagValues.filterMap Json.as_str).map to_tag))
  | _ => none

/-- Zero-padded decimal rendering of a natural number. -/
def padNat (width : Nat) (n : Nat) : String :=
  String.mk (List.replicate (width - (toString n).data.length) '0' ++ (toString n).data)

/-- Serialization of a model timestamp, standing in for the RFC 3339
rendering serde gives `chrono::DateTime<Utc>` (the model keeps only the
calendar date; a fixed midnight time component stands in for the
rest). -/
def dateToString (d : Date) : String :=
  padNat 4 d.year ++ "-" ++ padNat 2 d.month ++ "-" ++ padNat 2 d.day ++ "T00:00:00Z"

/-- Serde serialization of a `Stub` (field order; serde_json's map
would sort the keys, which no property here observes). -/
def stubToJson (s : Stub) : Json :=
  .obj [("id_path", .str s.id_path), ("output_path", .str s.output_path),
        ("created", .str (dateToString s.created)),
        ("modified", .str (dateToString s.modified)),
        ("title", .str s.title), ("summary", .str s.summary)]

/-- Model of `Doc::set_meta_related_from_taxonomy_index` (src/tags.rs):
read the doc's own normalized terms, take the union of the index
buckets for them, and merge the serialized result under the meta key
`related`.  Docs without a term array are returned unchanged. -/
def Doc.set_meta_related_from_taxonomy_index
    (doc : Doc) (key : String) (index : TagIndex) : Doc :=
  match doc.get_meta_taxonomy key with
  | none => doc
  | some tags =>
      doc.merge_meta
        (Json.obj [("related",
          Json.arr ((get_union_for_index_keys index tags).map stubToJson))])

/-- Body of the inner `for term in terms` loop of `index_by_taxonomy`:
string elements are filed under their normalized term, other elements
are skipped. -/
def indexTermStep (stub : Stub) (index : TagIndex) (term : Json) : TagIndex :=
  match term.as_str with
  | some s => pushStub index (to_tag s) stub
  | none => index

/-- Body of the outer `for doc in self` loop of `index_by_taxonomy`:
docs whose meta key does not hold an array contribute nothing. -/
def indexDocStep (key : String) (index : TagIndex) (doc : Doc) : TagIndex :=
  match doc.meta.get key with
  | some (.arr terms) => terms.foldl (indexTermStep (Stub.ofDoc doc)) index
  | _ => index

/-- Model of `index_by_taxonomy` (src/tags.rs, trait `TaggedDocs`):
for each doc, for each string element of the array at the meta key,
file a stub of the doc under the `to_tag`-normalized term.  Note that
the elements of one doc's array are *not* deduplicated here (unlike
`get_meta_taxonomy`). -/
def index_by_taxonomy (key : String) (docs : List Doc) : TagIndex :=
  docs.foldl (indexDocStep key) []

/-! ### Facts about the taxonomy index -/

/-- Membership survives `Vec::dedup` in both directions: only
consecutive duplicates are removed. -/
theorem mem_dedupConsecutive {α : Type} [DecidableEq α] (x : α) :
    ∀ l : List α, x ∈ dedupConsecutive l ↔ x ∈ l
  | [] => by simp [dedupConsecutive]
  | [a] => by simp [dedupConsecutive]
  | a :: b :: rest => by
    by_cases h : a = b
    · rw [dedupConsecutive, if_pos h, mem_dedupConsecutive x (b :: rest)]
      subst h
      simp
    · rw [dedupConsecutive, if_neg h]
      simp [mem_dedupConsecutive x (b :: rest)]

/-- Pushing a stub touches exactly its own bucket, appending at the
end. -/
theorem indexGetD_pushStub (index : TagIndex) (k : String) (s : Stub) (t : String) :
    indexGetD (pushStub index k s) t
      = if t = k then indexGetD index t ++ [s] else indexGetD index t := by
  induction index with
  | nil =>
    by_cases h : t = k
    · simp [pushStub, indexGetD, List.lookup, h]
    · simp [pushStub, indexGetD, List.lookup,
        show (t == k) = false from beq_false_of_ne h, h]
  | cons p rest ih =>
    obtain ⟨k2, v⟩ := p
    by_cases hk : k2 = k
    · subst hk
      by_cases h : t = k2
      · simp [pushStub, indexGetD, List.lookup, h]
      · simp [pushStub, indexGetD, List.lookup,
          show (t == k2) = false from beq_false_of_ne h, h]
    · by_cases h : t = k2
      · have htk : t ≠ k := by rw [h]; exact hk
        simp [pushStub, indexGetD, List.lookup, hk, h, htk]
      · simp only [pushStub, if_neg hk]
        simp only [indexGetD, List.lookup,
          show (t == k2) = false from beq_false_of_ne h]
        exact ih

/-- Per-document number of array elements normalizing to the term `t`
(the quantity `index_by_taxonomy` files for one doc and one bucket). -/
def taxTermCount (key t : String) (doc : Doc) : Nat :=
  match doc.meta.get key with
  | some (.arr terms) => (terms.filterMap Json.as_str).countP (fun s => to_tag s == t)
  | _ => 0

/-- Inner loop of `index_by_taxonomy` over one doc's term array: the
bucket for `t` grows by the number of string elements normalizing to
`t`. -/
theorem length_foldl_terms (t : String) (stub : Stub) :
    ∀ (terms : List Json) (index : TagIndex),
      (indexGetD (terms.foldl (indexTermStep stub) index) t).length
        = (indexGetD index t).length
            + (terms.filterMap Json.as_str).countP (fun s => to_tag s == t)
  | [], index => by simp
  | term :: terms, index => by
    simp only [List.foldl_cons, List.filterMap_cons]
    cases hs : term.as_str with
    | none =>
      rw [show indexTermStep stub index term = index from by
            unfold indexTermStep; rw [hs]]
      exact length_foldl_terms t stub terms index
    | some s =>
      rw [show indexTermStep stub index term = pushStub index (to_tag s) stub from by
            unfold indexTermStep; rw [hs]]
      rw [length_foldl_terms t stub terms (pushStub index (to_tag s) stub)]
      rw [indexGetD_pushStub]
      by_cases h : t = to_tag s
      · rw [if_pos h, List.countP_cons, if_pos (by simp [h])]
        simp
        omega
      · rw [if_neg h, List.countP_cons,
          if_neg (by simp; exact fun hc => h hc.symm)]
        simp

/-- One doc grows the bucket for `t` by its own term count. -/
theorem indexDocStep_length (key t : String) (index : TagIndex) (doc : Doc) :
    (indexGetD (indexDocStep key index doc) t).length
      = (indexGetD index t).length + taxTermCount key t doc := by
  unfold indexDocStep taxTermCount
  cases hm : doc.meta.get key with
  | none => simp
  | some v =>
    cases v with
    | arr terms => exact length_foldl_terms t (Stub.ofDoc doc) terms index
    | null => simp
    | bool b => simp
    | num n => simp
    | str s => simp
    | obj entries => simp

/-- Outer loop of `index_by_taxonomy` over the docs. -/
theorem length_foldl_docs (key t : String) :
    ∀ (docs : List Doc) (index : TagIndex),
      (indexGetD (docs.foldl (indexDocStep key) index) t).length
        = (indexGetD index t).length + (docs.map (taxTermCount key t)).sum
  | [], index => by simp
  | doc :: docs, index => by
    simp only [List.foldl_cons, List.map_cons, List.sum_cons]
    rw [length_foldl_docs key t docs (indexDocStep key index doc),
      indexDocStep_length]
    omega

/-! ### Claims C1 and C5 -/

/-- Example document A with tags `[x, y]` (the spec's taxonomy-union
scenario). -/
def docA : Doc :=
  { id_path := "a.md", output_path := "a.md",
    meta := .obj [("tags", .arr [.str "x", .str "y"])] }

/-- Example document B with tags `[y]`. -/
def docB : Doc :=
  { id_path := "b.md", output_path := "b.md",
    meta := .obj [("tags", .arr [.str "y"])] }

/-- Example document C with tags `[z]`. -/
def docC : Doc :=
  { id_path := "c.md", output_path := "c.md",
    meta := .obj [("tags", .arr [.str "z"])] }

/-- Example document D whose tag array holds two spellings of the same
term (`x` and `X` both normalize to `x`). -/
def docD : Doc :=
  { id_path := "d.md", output_path := "d.md",
    meta := .obj [("tags", .arr [.str "x", .str "X"])] }

/-- C1, counterexample: in the spec's own A/B/C scenario the related
lookup for A returns `[A, B]` — the querying document is **not**
excluded — and the lookup for C returns `[C]`, not the empty set. -/
theorem c1_counterexample :
    get_union_for_index_keys (index_by_taxonomy "tags" [docA, docB, docC])
        ((docA.get_meta_taxonomy "tags").getD [])
      = [Stub.ofDoc docA, Stub.ofDoc docB]
    ∧ get_union_for_index_keys (index_by_taxonomy "tags" [docA, docB, docC])
        ((docA.get_meta_taxonomy "tags").getD [])
      ≠ [Stub.ofDoc docB]
    ∧ get_union_for_index_keys (index_by_taxonomy "tags" [docA, docB, docC])
        ((docC.get_meta_taxonomy "tags").getD [])
      = [Stub.ofDoc docC] := by
  decide

/-- C1, amended: the related lookup unions the buckets of the
document's own normalized terms in term order — a stub is returned iff
it lies in some queried bucket, with no exclusion of the querying
document and only consecutive duplicates removed — and in the A/B/C
scenario `set_meta_related_from_taxonomy_index` stores `[A, B]` under
meta `related` for A, and `[C]` for C. -/
theorem c1_related_lookup_amended :
    (∀ (index : TagIndex) (keys : List String) (s : Stub),
        s ∈ get_union_for_index_keys index keys
          ↔ ∃ k ∈ keys, s ∈ indexGetD index k)
    ∧ (docA.set_meta_related_from_taxonomy_index "tags"
         (index_by_taxonomy "tags" [docA, docB, docC])).meta.get "related"
        = some (.arr [stubToJson (Stub.ofDoc docA), stubToJson (Stub.ofDoc docB)])
    ∧ (docC.set_meta_related_from_taxonomy_index "tags"
         (index_by_taxonomy "tags" [docA, docB, docC])).meta.get "related"
        = some (.arr [stubToJson (Stub.ofDoc docC)]) := by
  refine ⟨?_, by decide, by decide⟩
  intro index keys s
  unfold get_union_for_index_keys
  rw [mem_dedupConsecutive]
  exact List.mem_flatMap

/-- C5, counterexample: a single document whose tag array holds two
elements normalizing to the same term is filed twice in that term's
bucket — `index_by_taxonomy` does not deduplicate a document's terms
before fan-out. -/
theorem c5_counterexample :
    indexGetD (index_by_taxonomy "tags" [docD]) "x"
      = [Stub.ofDoc docD, Stub.ofDoc docD]
    ∧ ((indexGetD (index_by_taxonomy "tags" [docD]) "x").countP
        (fun s => s.id_path == docD.id_path)) = 2 := by
  decide

/-- C5, amended: each term bucket of `index_by_taxonomy` holds one stub
per contributing array element, not per contributing document: the
bucket for `t` has exactly as many stubs as there are string elements
normalizing to `t`, summed over the documents (duplicates included).
(`get_meta_taxonomy`, used on the query side, does deduplicate adjacent
equal terms, but the index builder reads the raw array.) -/
theorem c5_bucket_length_amended (key t : String) (docs : List Doc) :
    (indexGetD (index_by_taxonomy key docs) t).length
      = (docs.map (taxTermCount key t)).sum := by
  unfold index_by_taxonomy
  rw [length_foldl_docs key t docs []]
  simp [indexGetD]

/-! ## Stream combinators (src/docs.rs) -/

/-- Engine of `Docs::dedupe` (src/docs.rs): the Rust code filters with
a closure over a `HashSet` of seen `id_path`s (`seen.insert` returns
`false` on a repeat); the set is modelled as the list of already-seen
paths. -/
def dedupeGo (seen : List String) : List Doc → List Doc
  | [] => []
  | d :: ds =>
    if d.id_path ∈ seen then dedupeGo seen ds
    else d :: dedupeGo (d.id_path :: seen) ds

/-- Model of `Docs::dedupe` (src/docs.rs). -/
def dedupe (docs : List Doc) : List Doc := dedupeGo [] docs

/-- Model of `SortKey` (src/docs.rs). -/
inductive SortKey where
  | id_path | output_path | created | modified | title
deriving DecidableEq

/-- Three-way comparison of a linear order, the model of Rust `Ord::cmp`
on the primitive field types. -/
def cmp3 {α : Type} [LinearOrder α] (a b : α) : Ordering :=
  if a < b then .lt else if b < a then .gt else .eq

/-- Chronological comparison of model timestamps (lexicographic on
year, month, day — the restriction of `chrono`'s `Ord` to the calendar
date kept by the model). -/
def Date.cmp (a b : Date) : Ordering :=
  ((cmp3 a.year b.year).then (cmp3 a.month b.month)).then (cmp3 a.day b.day)

/-- Comparator selected by each `SortKey` arm of `Docs::sorted_by`. -/
def sortKeyCmp : SortKey → Doc → Doc → Ordering
  | .id_path, a, b => cmp3 a.id_path b.id_path
  | .output_path, a, b => cmp3 a.output_path b.output_path
  | .created, a, b => Date.cmp a.created b.created
  | .modified, a, b => Date.cmp a.modified b.modified
  | .title, a, b => cmp3 a.title b.title

/-- The comparator actually handed to the sort: the key comparison,
reversed when descending (the `ord.reverse()` of the free `sorted_by`
helper in src/docs.rs). -/
def rustOrd (key : SortKey) (asc : Bool) (a b : Doc) : Ordering :=
  if asc then sortKeyCmp key a b else (sortKeyCmp key a b).swap

/-- Insert an element in front of the first entry it must precede;
later-arriving equal elements stay behind the existing ones. -/
def orderedInsertBy {α : Type} (le : α → α → Bool) (a : α) : List α → List α
  | [] => [a]
  | b :: l => if le a b then a :: b :: l else b :: orderedInsertBy le a l

/-- Stable insertion sort with a boolean `le`. -/
def insertionSortBy {α : Type} (le : α → α → Bool) : List α → List α
  | [] => []
  | a :: l => orderedInsertBy le a (insertionSortBy le l)

/-- Model of `Docs::sorted_by` (src/docs.rs): collect, then stable-sort
with the selected comparator (`Vec::sort_by` guarantees a stable sort;
a stable insertion sort with the same total comparator produces the
identical output). -/
def sorted_by (docs : List Doc) (key : SortKey) (asc : Bool) : List Doc :=
  insertionSortBy (fun a b => rustOrd key asc a b != Ordering.gt) docs

/-! ### Facts about `dedupe` -/

/-- The dedupe pass never reorders: its output is a sublist of its
input. -/
theorem dedupeGo_sublist : ∀ (ds : List Doc) (seen : List String),
    (dedupeGo seen ds).Sublist ds
  | [], _ => List.Sublist.slnil
  | d :: ds, seen => by
    rw [dedupeGo]
    by_cases h : d.id_path ∈ seen
    · rw [if_pos h]
      exact (dedupeGo_sublist ds seen).cons d
    · rw [if_neg h]
      exact (dedupeGo_sublist ds (d.id_path :: seen)).cons₂ d

/-- Once a path has been seen, no further doc with that path
survives. -/
theorem dedupeGo_filter_seen (p : String) : ∀ (ds : List Doc) (seen : List String),
    p ∈ seen → (dedupeGo seen ds).filter (fun d => d.id_path == p) = []
  | [], _, _ => rfl
  | d :: ds, seen, hp => by
    rw [dedupeGo]
    by_cases h : d.id_path ∈ seen
    · rw [if_pos h]
      exact dedupeGo_filter_seen p ds seen hp
    · rw [if_neg h]
      have hne : (d.id_path == p) = false := by
        apply beq_false_of_ne
        intro he
        exact h (he ▸ hp)
      rw [List.filter_cons, hne]
      simp only [Bool.false_eq_true, if_false]
      exact dedupeGo_filter_seen p ds (d.id_path :: seen) (List.mem_cons_of_mem _ hp)

/-- Before a path has been seen, exactly its first occurrence
survives. -/
theorem dedupeGo_filter_new (p : String) : ∀ (ds : List Doc) (seen : List String),
    p ∉ seen →
    (dedupeGo seen ds).filter (fun d => d.id_path == p)
      = (ds.filter (fun d => d.id_path == p)).take 1
  | [], _, _ => rfl
  | d :: ds, seen, hp => by
    rw [dedupeGo]
    by_cases h : d.id_path ∈ seen
    · have hne : (d.id_path == p) = false := by
        apply beq_false_of_ne
        intro he
        exact hp (he ▸ h)
      rw [if_pos h, List.filter_cons, hne]
      simp only [Bool.false_eq_true, if_false]
      exact dedupeGo_filter_new p ds seen hp
    · rw [if_neg h]
      by_cases hd : d.id_path = p
      · have hbe : (d.id_path == p) = true := beq_iff_eq.mpr hd
        rw [List.filter_cons, List.filter_cons, hbe]
        simp only [if_true]
        rw [dedupeGo_filter_seen p ds (d.id_path :: seen)
          (hd ▸ List.mem_cons_self _ _)]
        simp
      · have hne : (d.id_path == p) = false := beq_false_of_ne hd
        rw [List.filter_cons, List.filter_cons, hne]
        simp only [Bool.false_eq_true, if_false]
        exact dedupeGo_filter_new p ds (d.id_path :: seen)
          (by intro hm; rcases List.mem_cons.mp hm with h1 | h1
              · exact hd h1.symm
              · exact hp h1)

/-! ### Claim C6 -/

/-- C6: when an `id_path` occurs more than once, `dedupe` keeps exactly
one doc with that path — the first occurrence — and the kept docs stay
in input order (the output is a sublist of the input). -/
theorem c6_dedupe_keeps_first (docs : List Doc) (p : String)
    (h : 1 < docs.countP (fun d => d.id_path == p)) :
    (dedupe docs).countP (fun d => d.id_path == p) = 1
    ∧ (dedupe docs).filter (fun d => d.id_path == p)
        = (docs.filter (fun d => d.id_path == p)).take 1
    ∧ (dedupe docs).Sublist docs := by
  have hfil : (dedupe docs).filter (fun d => d.id_path == p)
      = (docs.filter (fun d => d.id_path == p)).take 1 :=
    dedupeGo_filter_new p docs [] (List.not_mem_nil p)
  refine ⟨?_, hfil, dedupeGo_sublist docs []⟩
  rw [List.countP_eq_length_filter, hfil, List.length_take,
    ← List.countP_eq_length_filter]
  omega

/-- Second doc with the same `id_path` as A (a deliberate duplicate for
the dedupe witness). -/
def docA2 : Doc := { id_path := "a.md", output_path := "a2.md" }

/-- C6, witness: the duplicate sequence `[A2, B, A2]` keeps a single
`a.md` doc, at the front. -/
theorem c6_dedupe_keeps_first_witness :
    (dedupe [docA2, docB, docA2]).countP (fun d => d.id_path == "a.md") = 1
    ∧ (dedupe [docA2, docB, docA2]).filter (fun d => d.id_path == "a.md")
        = ([docA2, docB, docA2].filter (fun d => d.id_path == "a.md")).take 1
    ∧ (dedupe [docA2, docB, docA2]).Sublist [docA2, docB, docA2] :=
  c6_dedupe_keeps_first [docA2, docB, docA2] "a.md" (by decide)

/-! ### Facts about the stable sort -/

theorem cmp3_eq_iff {α : Type} [LinearOrder α] {a b : α} :
    cmp3 a b = .eq ↔ a = b := by
  unfold cmp3
  by_cases h1 : a < b
  · rw [if_pos h1]
    refine ⟨fun he => absurd he (by decide), fun he => ?_⟩
    subst he
    exact absurd h1 (lt_irrefl a)
  · rw [if_neg h1]
    by_cases h2 : b < a
    · rw [if_pos h2]
      refine ⟨fun he => absurd he (by decide), fun he => ?_⟩
      subst he
      exact absurd h2 (lt_irrefl a)
    · rw [if_neg h2]
      exact ⟨fun _ => le_antisymm (not_lt.mp h2) (not_lt.mp h1), fun _ => rfl⟩

theorem then_eq_eq {x y : Ordering} : x.then y = .eq ↔ x = .eq ∧ y = .eq := by
  cases x <;> simp [Ordering.then]

theorem ord_beq_iff {x y : Ordering} : (x == y) = true ↔ x = y := by
  cases x <;> cases y <;> decide

theorem Date.cmp_eq_iff {a b : Date} : Date.cmp a b = .eq ↔ a = b := by
  unfold Date.cmp
  rw [then_eq_eq, then_eq_eq, cmp3_eq_iff, cmp3_eq_iff, cmp3_eq_iff]
  constructor
  · rintro ⟨⟨h1, h2⟩, h3⟩
    obtain ⟨y1, m1, d1⟩ := a
    obtain ⟨y2, m2, d2⟩ := b
    simp only at h1 h2 h3
    rw [h1, h2, h3]
  · intro h
    subst h
    exact ⟨⟨rfl, rfl⟩, rfl⟩

/-- Two docs whose keys both compare equal to a reference doc's key
compare equal to each other. -/
theorem sortKeyCmp_eq_trans (key : SortKey) {d0 a b : Doc}
    (ha : sortKeyCmp key d0 a = .eq) (hb : sortKeyCmp key d0 b = .eq) :
    sortKeyCmp key a b = .eq := by
  cases key <;>
    simp only [sortKeyCmp, cmp3_eq_iff, Date.cmp_eq_iff] at ha hb ⊢ <;>
      rw [← ha, ← hb]

/-- `orderedInsertBy` keeps the relative order of the old elements and
puts the new one in front of the first element it may precede; filtered
through a class the new element belongs to and must precede, it lands
exactly at the front. -/
theorem filter_orderedInsertBy_pos {α : Type} (le : α → α → Bool) (p : α → Bool)
    (a : α) (ha : p a = true) (hle : ∀ b, p b = true → le a b = true) :
    ∀ l : List α, (orderedInsertBy le a l).filter p = a :: l.filter p
  | [] => by simp [orderedInsertBy, ha]
  | b :: l => by
    rw [orderedInsertBy]
    by_cases hab : le a b = true
    · rw [if_pos hab, List.filter_cons, ha]
      simp
    · rw [if_neg hab]
      have hpb : p b = false := by
        cases hq : p b with
        | false => rfl
        | true => exact absurd (hle b hq) hab
      rw [List.filter_cons, List.filter_cons, hpb]
      simp only [Bool.false_eq_true, if_false]
      exact filter_orderedInsertBy_pos le p a ha hle l

/-- Inserting an element outside the filtered class leaves the filtered
output unchanged. -/
theorem filter_orderedInsertBy_neg {α : Type} (le : α → α → Bool) (p : α → Bool)
    (a : α) (ha : p a = false) :
    ∀ l : List α, (orderedInsertBy le a l).filter p = l.filter p
  | [] => by simp [orderedInsertBy, ha]
  | b :: l => by
    rw [orderedInsertBy]
    by_cases hab : le a b = true
    · rw [if_pos hab, List.filter_cons, ha]
      simp
    · rw [if_neg hab, List.filter_cons, List.filter_cons]
      cases hq : p b with
      | false => simp only [Bool.false_eq_true, if_false]
                 exact filter_orderedInsertBy_neg le p a ha l
      | true => simp only [if_true]
                rw [filter_orderedInsertBy_neg le p a ha l]

/-- Stability of the insertion sort: when the comparator cannot strictly
order two elements of a class (`le` holds inside the class in both
directions), the sorted list restricted to that class is the input
restricted to that class. -/
theorem filter_insertionSortBy {α : Type} (le : α → α → Bool) (p : α → Bool)
    (hco : ∀ a b, p a = true → p b = true → le a b = true) :
    ∀ l : List α, (insertionSortBy le l).filter p = l.filter p
  | [] => rfl
  | a :: l => by
    rw [insertionSortBy]
    cases ha : p a with
    | true =>
      rw [filter_orderedInsertBy_pos le p a ha (fun b hb => hco a b ha hb),
        filter_insertionSortBy le p hco l, List.filter_cons, ha]
      simp
    | false =>
      rw [filter_orderedInsertBy_neg le p a ha,
        filter_insertionSortBy le p hco l, List.filter_cons, ha]
      simp

/-- Insertion produces a permutation of consing. -/
theorem orderedInsertBy_perm {α : Type} (le : α → α → Bool) (a : α) :
    ∀ l : List α, (orderedInsertBy le a l).Perm (a :: l)
  | [] => List.Perm.refl _
  | b :: l => by
    rw [orderedInsertBy]
    by_cases hab : le a b = true
    · rw [if_pos hab]
    · rw [if_neg hab]
      exact ((orderedInsertBy_perm le a l).cons b).trans (List.Perm.swap a b l)

/-- The sort is a permutation of its input. -/
theorem insertionSortBy_perm {α : Type} (le : α → α → Bool) :
    ∀ l : List α, (insertionSortBy le l).Perm l
  | [] => List.Perm.refl _
  | a :: l => by
    rw [insertionSortBy]
    exact (orderedInsertBy_perm le a _).trans ((insertionSortBy_perm le l).cons a)

/-! ### Claim C7 -/

/-- C7: `sorted_by` is a permutation of its input and is stable for
every sort key and both directions — restricted to the docs whose key
compares equal to any reference doc's key, the output equals the input,
so equal-keyed docs are never reordered. -/
theorem c7_sorted_by_stable (docs : List Doc) (key : SortKey) (asc : Bool) (d0 : Doc) :
    (sorted_by docs key asc).Perm docs
    ∧ (sorted_by docs key asc).filter (fun d => sortKeyCmp key d0 d == Ordering.eq)
        = docs.filter (fun d => sortKeyCmp key d0 d == Ordering.eq) := by
  constructor
  · exact insertionSortBy_perm _ docs
  · apply filter_insertionSortBy
    intro a b ha hb
    have ha2 : sortKeyCmp key d0 a = .eq := ord_beq_iff.mp ha
    have hb2 : sortKeyCmp key d0 b = .eq := ord_beq_iff.mp hb
    have hab : sortKeyCmp key a b = .eq := sortKeyCmp_eq_trans key ha2 hb2
    unfold rustOrd
    by_cases hasc : asc
    · rw [if_pos hasc, hab]
      rfl
    · rw [if_neg hasc, hab]
      rfl

/-! ## Paths and the permalink templater (src/permalink.rs)

Paths are modelled as strings whose `Path::components` are recovered by
splitting on the slash and dropping empty and `.` segments.  The model
covers the relative normal paths the pipeline uses (no `..`, no root
prefix); the theorems about arbitrary paths carry the corresponding
cleanliness hypotheses. -/

/-- Split a character list on slashes, keeping empty segments (they are
dropped afterwards, mirroring `Path::components`). -/
def splitSlash : List Char → List (List Char)
  | [] => [[]]
  | c :: cs =>
    if c = '/' then [] :: splitSlash cs
    else
      match splitSlash cs with
      | [] => [[c]]
      | w :: ws => (c :: w) :: ws

/-- Model of `Path::components` for relative normal paths: the
slash-separated segments, dropping empty segments and `.`. -/
def components (p : String) : List String :=
  ((splitSlash p.data).map String.mk).filter (fun c => !(c == "" || c == "."))

/-- Rebuild a path string from components (what `collect` into a
`PathBuf` produces). -/
def joinPath : List String → String
  | [] => ""
  | [c] => c
  | c :: rest => c ++ "/" ++ joinPath rest

/-- Model of `sluggify_path` (src/permalink.rs): sluggify every normal
component. -/
def sluggify_path (p : String) : String :=
  joinPath ((components p).map to_slug)

/-- First-occurrence split of `l` around `pat`:
`some (pre, post)` with `l = pre ++ pat ++ post` when `pat` occurs. -/
def splitFirst (pat : List Char) : List Char → Option (List Char × List Char)
  | [] => if pat = [] then some ([], []) else none
  | c :: cs =>
    if pat.isPrefixOf (c :: cs) then some ([], (c :: cs).drop pat.length)
    else
      match splitFirst pat cs with
      | some (pre, post) => some (c :: pre, post)
      | none => none

/-- Last-occurrence split of `l` around `pat`, through the reversal of
the first-occurrence split. -/
def splitLast (pat l : List Char) : Option (List Char × List Char) :=
  match splitFirst pat.reverse l.reverse with
  | some (preR, postR) => some (postR.reverse, preR.reverse)
  | none => none

/-- Model of `Path::file_stem` on a file name: the portion before the
last dot, the whole name when there is no dot or when the name starts
with its only dot. -/
def file_stem (name : String) : String :=
  match splitLast ['.'] name.data with
  | none => name
  | some (pre, _) => if pre = [] then name else String.mk pre

/-- Model of `Path::extension` on a file name: the portion after the
last dot, none when there is no dot or when the name starts with its
only dot. -/
def extensionOf (name : String) : Option String :=
  match splitLast ['.'] name.data with
  | none => none
  | some (pre, post) => if pre = [] then none else some (String.mk post)

/-- Model of `to_nice_path` (src/permalink.rs): sluggify the path; an
`index` file is canonicalized flat as `index.html` (no extra `index/`
level), any other stem `s` becomes `parent/s/index.html`. -/
def to_nice_path (p : String) : Option String :=
  match (components (sluggify_path p)).getLast? with
  | none => none
  | some name =>
    if file_stem name = "index" then
      some (joinPath ((components (sluggify_path p)).dropLast ++ ["index.html"]))
    else
      some (joinPath ((components (sluggify_path p)).dropLast ++ [file_stem name, "index.html"]))

/-- Model of `Doc::get_permalink_template_parts` (src/permalink.rs):
`None` as soon as the id-path misses a file name, an extension, or a
parent directory component (the `?` early returns of the source); the
parts appear in insertion order. -/
def Doc.get_permalink_template_parts (doc : Doc) : Option (List (String × String)) :=
  match (components doc.id_path).getLast? with
  | none => none
  | some name =>
    match extensionOf name with
    | none => none
    | some ext =>
      match (components doc.id_path).dropLast.getLast? with
      | none => none
      | some parent =>
        some [("name", name), ("stem", file_stem name),
              ("slug", to_slug (file_stem name)), ("ext", ext),
              ("parents", joinPath (components doc.id_path).dropLast),
              ("parent", parent),
              ("yyyy", padNat 4 doc.created.year),
              ("yy", padNat 2 (doc.created.year % 100)),
              ("mm", padNat 2 doc.created.month),
              ("dd", padNat 2 doc.created.day)]

/-- Model of `Doc::set_permalink` (src/permalink.rs): render the
template with the doc's parts map — or with the empty map when a part
is unresolvable — and store the result as the output path. -/
def Doc.set_permalink (doc : Doc) (permalink_template : String) : Doc :=
  { doc with
    output_path := render permalink_template (doc.get_permalink_template_parts.getD []) }

/-! ### Claim C2 -/

/-- The document of the repository's own `test_permalink` unit test:
`parent/test_file.md`, created 2023-05-15. -/
def docT : Doc :=
  { id_path := "parent/test_file.md", output_path := "parent/test_file.md",
    created := ⟨2023, 5, 15⟩ }

/-- The claim's example document: file stem `Test File`, created
2023-05-15. -/
def docT2 : Doc :=
  { id_path := "posts/Test File.md", output_path := "posts/Test File.md",
    created := ⟨2023, 5, 15⟩ }

/-- C2, divergence witnessed in the code: `token_template::render`
replaces `":key"`-prefixed needles (`format!(":{}", key)`), so
`{key}`-style permalink templates — the style used by `set_permalink`'s
documentation, by `set_blog_permalink`, and asserted by the repository's
own `test_permalink` — are returned verbatim.  These evaluations do not
depend on the `HashMap` iteration order: the templates contain no
colon, so every replacement pass is the identity under any order.  The
parts map itself is correct, as the key lookups show, isolating the
needle format as the slip. -/
theorem c2_permalink_braces_unsubstituted :
    (docT.set_permalink "{yyyy}/{mm}/{dd}/{stem}/index.html").output_path
      = "{yyyy}/{mm}/{dd}/{stem}/index.html"
    ∧ (docT.set_permalink "{yyyy}/{mm}/{dd}/{stem}/index.html").output_path
      ≠ "2023/05/15/test_file/index.html"
    ∧ (docT2.set_permalink "{yyyy}/{slug}/index.html").output_path
      = "{yyyy}/{slug}/index.html"
    ∧ (docT2.set_permalink "{yyyy}/{slug}/index.html").output_path
      ≠ "2023/test-file/index.html"
    ∧ (docT2.get_permalink_template_parts.getD []).lookup "yyyy" = some "2023"
    ∧ (docT2.get_permalink_template_parts.getD []).lookup "slug" = some "test-file"
    ∧ (docT.get_permalink_template_parts.getD []).lookup "stem" = some "test_file"
    ∧ docT2.get_permalink_template_parts ≠ none := by
  refine ⟨by decide, by decide, by decide, by decide, by decide, by decide, by decide, by decide⟩

/-! ### Facts about path components -/

theorem splitSlash_ne_nil : ∀ l : List Char, splitSlash l ≠ []
  | [] => by simp [splitSlash]
  | c :: cs => by
    rw [splitSlash]
    by_cases h : c = '/'
    · rw [if_pos h]
      simp
    · rw [if_neg h]
      cases hs : splitSlash cs with
      | nil => simp
      | cons w ws => simp

theorem mem_splitSlash_no_slash : ∀ (l w : List Char), w ∈ splitSlash l → '/' ∉ w
  | [], w, hw => by
    simp [splitSlash] at hw
    subst hw
    simp
  | c :: cs, w, hw => by
    rw [splitSlash] at hw
    by_cases h : c = '/'
    · rw [if_pos h] at hw
      rcases List.mem_cons.mp hw with h1 | h1
      · subst h1
        simp
      · exact mem_splitSlash_no_slash cs w h1
    · rw [if_neg h] at hw
      cases hs : splitSlash cs with
      | nil => exact absurd hs (splitSlash_ne_nil cs)
      | cons w0 ws =>
        rw [hs] at hw
        rcases List.mem_cons.mp hw with h1 | h1
        · subst h1
          intro hmem
          rcases List.mem_cons.mp hmem with h2 | h2
          · exact h h2.symm
          · exact mem_splitSlash_no_slash cs w0 (hs ▸ List.mem_cons_self _ _) h2
        · exact mem_splitSlash_no_slash cs w (hs ▸ List.mem_cons_of_mem _ h1)

theorem splitSlash_no_slash : ∀ w : List Char, '/' ∉ w → splitSlash w = [w]
  | [], _ => rfl
  | c :: cs, h => by
    have hc : c ≠ '/' := by
      intro hcc
      exact h (hcc ▸ List.mem_cons_self c cs)
    rw [splitSlash, if_neg hc,
      splitSlash_no_slash cs (fun hm => h (List.mem_cons_of_mem c hm))]

theorem splitSlash_append (w : List Char) (hw : '/' ∉ w) (r : List Char) :
    splitSlash (w ++ '/' :: r) = w :: splitSlash r := by
  induction w with
  | nil => simp [splitSlash]
  | cons c w ih =>
    have hc : c ≠ '/' := fun hcc => hw (hcc ▸ List.mem_cons_self c w)
    rw [List.cons_append, splitSlash, if_neg hc,
      ih (fun hm => hw (List.mem_cons_of_mem c hm))]

/-- Splitting inverts joining on clean components. -/
theorem components_joinPath : ∀ l : List String,
    (∀ c ∈ l, c ≠ "" ∧ c ≠ "." ∧ '/' ∉ c.data) →
    components (joinPath l) = l
  | [], _ => by decide
  | [c], h => by
    obtain ⟨h1, h2, h3⟩ := h c (List.mem_cons_self c [])
    show components c = [c]
    unfold components
    rw [splitSlash_no_slash c.data h3]
    simp [h1, h2]
  | c :: c2 :: l, h => by
    obtain ⟨h1, h2, h3⟩ := h c (List.mem_cons_self _ _)
    have hrest : ∀ x ∈ c2 :: l, x ≠ "" ∧ x ≠ "." ∧ '/' ∉ x.data :=
      fun x hx => h x (List.mem_cons_of_mem c hx)
    show components (c ++ "/" ++ joinPath (c2 :: l)) = c :: c2 :: l
    unfold components
    have hdata : (c ++ "/" ++ joinPath (c2 :: l)).data
        = c.data ++ '/' :: (joinPath (c2 :: l)).data := by simp
    rw [hdata, splitSlash_append c.data h3, List.map_cons, List.filter_cons]
    have hpred : (!((String.mk c.data) == "" || (String.mk c.data) == ".")) = true := by
      simp only [show String.mk c.data = c from rfl]
      simp [h1, h2]
    rw [hpred]
    simp only [if_true]
    have htail := components_joinPath (c2 :: l) hrest
    unfold components at htail
    rw [htail]

/-- Sluggification introduces no slash. -/
theorem slash_not_mem_toSlugL {l : List Char} (h : '/' ∉ l) : '/' ∉ toSlugL l := by
  intro hmem
  unfold toSlugL remove_non_slug_chars_L lowerL at hmem
  have h1 := (List.mem_filter.mp hmem).1
  rw [List.map_map] at h1
  obtain ⟨d, hd, hde⟩ := List.mem_map.mp h1
  simp only [Function.comp] at hde
  have h2 : toLowerC d = '/' := by
    unfold spaceToDash at hde
    by_cases hsp : toLowerC d = ' '
    · rw [if_pos hsp] at hde
      exact absurd hde (by decide)
    · rw [if_neg hsp] at hde
      exact hde
  have h3 : d = '/' := by
    unfold toLowerC at h2
    cases hl : lowerPairs.lookup d with
    | none =>
      rw [hl] at h2
      exact h2
    | some v =>
      have hv : ∀ q ∈ lowerPairs, q.2 ≠ '/' := by decide
      rw [hl] at h2
      exact absurd h2 (hv _ (lookup_mem hl))
  exact h (h3 ▸ mem_trimL hd)

/-! ### Claim C9 -/

/-- C9: on a path whose last component sluggifies to the stem `index`,
`to_nice_path` replaces the file name by `index.html` flat — no extra
`index/` directory level — while any other stem `s` yields
`parent/s/index.html`; in both cases every normal component is
sluggified.  The cleanliness hypotheses restrict to components that
survive re-parsing (no component whose slug is empty or `.`). -/
theorem c9_to_nice_path_cases (p : String) (cs : List String) (name : String)
    (hcomp : components p = cs ++ [name])
    (hclean : ∀ c ∈ components p, to_slug c ≠ "" ∧ to_slug c ≠ ".") :
    (file_stem (to_slug name) = "index" →
        to_nice_path p = some (joinPath (cs.map to_slug ++ ["index.html"])))
    ∧ (file_stem (to_slug name) ≠ "index" →
        to_nice_path p
          = some (joinPath (cs.map to_slug ++ [file_stem (to_slug name), "index.html"]))) := by
  have hslug : components (sluggify_path p) = (cs ++ [name]).map to_slug := by
    unfold sluggify_path
    rw [hcomp]
    apply components_joinPath
    intro c hc
    obtain ⟨d, hd, hde⟩ := List.mem_map.mp hc
    subst hde
    have hd2 : d ∈ components p := hcomp ▸ hd
    refine ⟨(hclean d hd2).1, (hclean d hd2).2, ?_⟩
    have hds : '/' ∉ d.data := by
      unfold components at hd2
      have h1 := (List.mem_filter.mp hd2).1
      obtain ⟨w, hw, hwe⟩ := List.mem_map.mp h1
      have hns := mem_splitSlash_no_slash p.data w hw
      rw [← hwe]
      exact hns
    exact slash_not_mem_toSlugL hds
  have hlast : ((cs.map to_slug) ++ [to_slug name]).getLast? = some (to_slug name) := by
    simp
  have hdrop : ((cs.map to_slug) ++ [to_slug name]).dropLast = cs.map to_slug := by
    simp
  unfold to_nice_path
  rw [hslug, List.map_append, List.map_cons, List.map_nil, hlast]
  simp only
  constructor
  · intro hidx
    rw [if_pos hidx, hdrop]
  · intro hidx
    rw [if_neg hidx, hdrop]

/-- C9, witness: the repository's own `test_nice_path` examples — a
normal file gains a directory level, an `index` file does not. -/
theorem c9_to_nice_path_cases_witness :
    to_nice_path "foo bar/Baz/Some.md" = some "foo-bar/baz/some/index.html"
    ∧ to_nice_path "foo bar/Baz/index.md" = some "foo-bar/baz/index.html" := by
  constructor
  · have h := (c9_to_nice_path_cases "foo bar/Baz/Some.md" ["foo bar", "Baz"]
      "Some.md" (by decide) (by decide)).2 (by decide)
    exact h.trans (by decide)
  · have h := (c9_to_nice_path_cases "foo bar/Baz/index.md" ["foo bar", "Baz"]
      "index.md" (by decide) (by decide)).1 (by decide)
    exact h.trans (by decide)

/-! ## Frontmatter extraction (src/frontmatter.rs)

The regex `(?ms)^---\n(.*)---\n?` is modelled directly: `find` looks
for the leftmost line start followed by `---\n` after which `---` still
occurs; the greedy `(.*)` then captures up to the *last* such `---`,
and `\n?` consumes one following newline when present.  The YAML parser
(`serde_yml`, an external crate) is a parameter of the embedding:
`none` models a parse error. -/

/-- Attempt the frontmatter match anchored at the current position
(which the scanner only calls at line starts). -/
def fmMatch (l : List Char) : Option (List Char × List Char) :=
  match l with
  | '-' :: '-' :: '-' :: '\n' :: rest =>
    match splitLast ['-', '-', '-'] rest with
    | some (pre, post) =>
      some (pre,
        match post with
        | '\n' :: post2 => post2
        | _ => post)
    | none => none
  | _ => none

/-- Scanner for the leftmost line start where the frontmatter pattern
matches: try the current position, else resume after the next
newline.  The wrapper supplies the input length as fuel. -/
def fmGo : Nat → List Char → Option (List Char × List Char)
  | 0, _ => none
  | fuel + 1, l =>
    match fmMatch l with
    | some r => some r
    | none =>
      match splitFirst ['\n'] l with
      | none => none
      | some (_, rest) => fmGo fuel rest

/-- Regex `find` of the frontmatter pattern: capture group and text
after the match. -/
def fmFind (l : List Char) : Option (List Char × List Char) :=
  fmGo (l.length + 1) l

/-- Model of `extract_front_matter_and_content` (src/frontmatter.rs):
on a match, the trimmed capture and the trimmed remainder; otherwise
the empty string and the unchanged text. -/
def extract_front_matter_and_content (text : String) : String × String :=
  match fmFind text.data with
  | some (fm, rest) => (String.mk (trimL fm), String.mk (trimL rest))
  | none => ("", text)

/-- Model of `Doc::parse_frontmatter` (src/frontmatter.rs): extract the
frontmatter; when the YAML parser accepts it the result replaces
`meta`; the content always becomes the extracted remainder. -/
def Doc.parse_frontmatter (parseYaml : String → Option Json) (doc : Doc) : Doc :=
  match parseYaml (extract_front_matter_and_content doc.content).1 with
  | some meta =>
      { doc with meta := meta,
                 content := (extract_front_matter_and_content doc.content).2 }
  | none =>
      { doc with content := (extract_front_matter_and_content doc.content).2 }

/-! ### Claim C3 -/

/-- Stub for the external YAML parser (`serde_yml`), agreeing with it
on every input reached by the theorems below: the empty document
parses successfully (as null), while a lone `]` is a YAML syntax error
and is rejected. -/
def serdeStub : String → Option Json :=
  fun s => if s = "" then some Json.null else none

/-- Document whose content holds a frontmatter-shaped block — with a
body `]` that no YAML parser accepts — not starting at the top of the
file. -/
def docE : Doc :=
  { id_path := "e.md", output_path := "e.md",
    content := "hello\n---\n]\n---\nworld" }

/-- C3, counterexample: `docE` has no *leading* frontmatter block, and
the extracted frontmatter is the lone `]`, which YAML rejects, so
`meta` is left alone — yet `parse_frontmatter` is not the identity:
the `(?m)` pattern matches the block in the middle of the content and
strips it, so the content becomes `"world"`. -/
theorem c3_parse_frontmatter_not_identity :
    docE.content = "hello\n---\n]\n---\nworld"
    ∧ (extract_front_matter_and_content docE.content).1 = "]"
    ∧ (docE.parse_frontmatter serdeStub).content = "world"
    ∧ (docE.parse_frontmatter serdeStub).content ≠ docE.content
    ∧ (docE.parse_frontmatter serdeStub).meta = docE.meta := by
  refine ⟨rfl, by decide, by decide, by decide, by decide⟩

/-- C3, amended: for every YAML parse behavior, (i) `meta` is unchanged
whenever the parse of the extracted frontmatter fails; (ii) the content
is unchanged when the pattern matches nowhere in the content — not
merely when no *leading* block exists; and (iii) whenever the pattern
does match (anywhere), the content becomes the text after the block,
trimmed, even on parse failure. -/
theorem c3_parse_frontmatter_amended (parseYaml : String → Option Json) (d : Doc) :
    (parseYaml (extract_front_matter_and_content d.content).1 = none →
        (d.parse_frontmatter parseYaml).meta = d.meta)
    ∧ (fmFind d.content.data = none →
        (d.parse_frontmatter parseYaml).content = d.content)
    ∧ (d.parse_frontmatter parseYaml).content
        = (extract_front_matter_and_content d.content).2 := by
  refine ⟨?_, ?_, ?_⟩
  · intro h
    simp [Doc.parse_frontmatter, h]
  · intro h
    have hex : extract_front_matter_and_content d.content = ("", d.content) := by
      unfold extract_front_matter_and_content
      rw [h]
    unfold Doc.parse_frontmatter
    rw [hex]
    cases parseYaml ("", d.content).1 <;> rfl
  · cases hp : parseYaml (extract_front_matter_and_content d.content).1 with
    | none => simp [Doc.parse_frontmatter, hp]
    | some m => simp [Doc.parse_frontmatter, hp]

/-- Document without any frontmatter-shaped block. -/
def docF : Doc :=
  { id_path := "f.md", output_path := "f.md", content := "hello" }

/-- Document whose leading frontmatter block holds the unparseable
`]`. -/
def docG : Doc :=
  { id_path := "g.md", output_path := "g.md",
    meta := .obj [("kept", .bool true)],
    content := "---\n]\n---\nbody" }

/-- C3, witness: with the serde-faithful parser stub, a document whose
block fails to parse keeps its `meta`, and a block-free document keeps
its `content`. -/
theorem c3_parse_frontmatter_amended_witness :
    (docG.parse_frontmatter serdeStub).meta = docG.meta
    ∧ (docF.parse_frontmatter serdeStub).content = docF.content :=
  ⟨(c3_parse_frontmatter_amended serdeStub docG).1 (by decide),
   (c3_parse_frontmatter_amended serdeStub docF).2.1 (by decide)⟩

/-! ## Wikilinks (src/wikilink.rs)

The regex `\[\[([^\]]+)\]\]` is modelled by a scanner that, at each
position, matches two opening brackets, a nonempty run of
non-`]` characters, and two closing brackets; `replace_all` walks the
text left to right, emitting the callback's output for each match. -/

/-- Attempt the `WIKILINK` match at the head of the text: on success,
the whole match (`caps[0]`) and the rest of the text. -/
def tryMatch (l : List Char) : Option (List Char × List Char) :=
  match l with
  | '[' :: '[' :: rest =>
    if (rest.takeWhile (fun c => !(c == ']'))).isEmpty then none
    else
      match rest.dropWhile (fun c => !(c == ']')) with
      | ']' :: ']' :: rest2 =>
        some ('[' :: '[' :: (rest.takeWhile (fun c => !(c == ']')) ++ [']', ']']), rest2)
      | _ => none
  | _ => none

/-- Fueled engine of `Regex::replace_all` for the wikilink pattern:
each position either starts a match — replaced by `f` applied to the
whole match — or its character is copied.  The wrapper supplies the
input length as fuel. -/
def wikiGo (f : List Char → List Char) : Nat → List Char → List Char
  | 0, l => l
  | _ + 1, [] => []
  | fuel + 1, c :: cs =>
    match tryMatch (c :: cs) with
    | some (m, rest) => f m ++ wikiGo f fuel rest
    | none => c :: wikiGo f fuel cs

/-- Model of `WIKILINK.replace_all(text, f)`. -/
def wikiReplaceAll (f : List Char → List Char) (l : List Char) : List Char :=
  wikiGo f (l.length + 1) l

/-- Model of the parsed `Wikilink` (src/wikilink.rs). -/
structure Wikilink where
  text : String
  slug : String

/-- Characters stripped by `trim_matches(|c| c == '[' || c == ']' || c == ' ')`. -/
def isBracketOrSpace (c : Char) : Bool := c == '[' || c == ']' || c == ' '

/-- Strip brackets and spaces from both ends of the raw match. -/
def trimMatchesBracket (l : List Char) : List Char :=
  ((l.dropWhile isBracketOrSpace).reverse.dropWhile isBracketOrSpace).reverse

/-- Model of `parse_wikilink` (src/wikilink.rs): strip the brackets;
with a pipe, the display text is the trimmed segment after it and the
slug is the sluggified trimmed segment before it; without one, the
display text is the whole inner text and the slug its sluggification. -/
def parse_wikilink (wikilinkStr : List Char) : Wikilink :=
  match splitFirst ['|'] (trimMatchesBracket wikilinkStr) with
  | some (slugPart, textPart) =>
    { text := String.mk (trimL textPart),
      slug := to_slug (trimString (String.mk slugPart)) }
  | none =>
    { text := String.mk (trimL (trimMatchesBracket wikilinkStr)),
      slug := to_slug (String.mk (trimL (trimMatchesBracket wikilinkStr))) }

/-- Test of the anchored `TRANSCLUDE` regex `^\[\[([^\]]+)\]\]$`: the
entire text is one wikilink. -/
def isTransclude (t : String) : Bool :=
  match tryMatch t.data with
  | some (_, rest) => rest.isEmpty
  | none => false

/-- Model of `TRANSCLUDE.replace_all(text, "")`: the anchored pattern
can only match the whole text, which is then erased. -/
def transcludeReplace (l : List Char) : List Char :=
  match tryMatch l with
  | some (_, rest) => if rest.isEmpty then [] else l
  | none => l

/-- Replacement of every inline wikilink by its display text (the
second `replace_all` of `strip_wikilinks`). -/
def strip_inline_wikilinks (text : String) : String :=
  String.mk (wikiReplaceAll (fun m => ((parse_wikilink m).text).data) text.data)

/-- Model of `strip_wikilinks` (src/wikilink.rs): erase a transclude,
then replace every wikilink by its display text; no index is
consulted. -/
def strip_wikilinks (text : String) : String :=
  String.mk (wikiReplaceAll (fun m => ((parse_wikilink m).text).data)
    (transcludeReplace text.data))

/-- Body of the `replace_all` closure of `render_wikilinks_with_template`
(src/wikilink.rs): a match whose slug is a key of the index becomes the
`wikilink` template rendered with the matched doc's `output_path`,
`title` and `summary` plus the link's `text` and `slug`; a match whose
slug is absent becomes the `nolink` template rendered with `text` and
`slug` only. -/
def wikiMatchReplace (wikilink_template nolink_template : String)
    (slug_to_doc_index : List (String × Doc)) (m : List Char) : List Char :=
  match slug_to_doc_index.lookup (parse_wikilink m).slug with
  | some doc =>
    (render wikilink_template
      [("output_path", doc.output_path), ("title", doc.title),
       ("summary", doc.summary), ("text", (parse_wikilink m).text),
       ("slug", (parse_wikilink m).slug)]).data
  | none =>
    (render nolink_template
      [("text", (parse_wikilink m).text),
       ("slug", (parse_wikilink m).slug)]).data

/-- Model of `render_wikilinks_with_template` (src/wikilink.rs): scan
the text and replace every wikilink match by `wikiMatchReplace` of the
match.  The function is total: a dangling wikilink is never an
error. -/
def render_wikilinks_with_template (text wikilink_template nolink_template : String)
    (slug_to_doc_index : List (String × Doc)) : String :=
  String.mk (wikiReplaceAll
    (wikiMatchReplace wikilink_template nolink_template slug_to_doc_index) text.data)

/-! ### Facts about the wikilink scanner -/

/-- A position not starting with an opening bracket never starts a
match. -/
theorem tryMatch_none_head {c : Char} (cs : List Char) (h : c ≠ '[') :
    tryMatch (c :: cs) = none := by
  unfold tryMatch
  split
  · rename_i heq
    injection heq with h1 h2
    exact absurd h1 h
  · rfl

/-- `takeWhile`/`dropWhile` through a satisfying block up to the first
failing element. -/
theorem takeWhile_append_stop {α : Type} (p : α → Bool) :
    ∀ (w : List α), (∀ c ∈ w, p c = true) → ∀ (x : α), p x = false → ∀ (xs : List α),
      (w ++ x :: xs).takeWhile p = w ∧ (w ++ x :: xs).dropWhile p = x :: xs
  | [], _, x, hx, xs => by
    simp [List.takeWhile_cons, List.dropWhile_cons, hx]
  | a :: w, hw, x, hx, xs => by
    have ha : p a = true := hw a (List.mem_cons_self a w)
    have ih := takeWhile_append_stop p w (fun c hc => hw c (List.mem_cons_of_mem a hc)) x hx xs
    simp [List.takeWhile_cons, List.dropWhile_cons, ha, ih.1, ih.2]

/-- A well-formed wikilink — nonempty inner text without closing
brackets — matches at its own start, consuming exactly itself. -/
theorem tryMatch_wellformed (inner rest : List Char) (hne : inner ≠ [])
    (hnb : ']' ∉ inner) :
    tryMatch ('[' :: '[' :: (inner ++ ']' :: ']' :: rest))
      = some ('[' :: '[' :: (inner ++ [']', ']']), rest) := by
  have hall : ∀ c ∈ inner, (!(c == ']')) = true := by
    intro c hc
    simp only [Bool.not_eq_true']
    exact beq_false_of_ne (fun he => hnb (he ▸ hc))
  have hstop : (!(']' == ']')) = false := by decide
  have h := takeWhile_append_stop (fun c => !(c == ']')) inner hall ']' hstop (']' :: rest)
  have hred : tryMatch ('[' :: '[' :: (inner ++ ']' :: ']' :: rest))
      = if ((inner ++ ']' :: ']' :: rest).takeWhile (fun c => !(c == ']'))).isEmpty then none
        else
          match (inner ++ ']' :: ']' :: rest).dropWhile (fun c => !(c == ']')) with
          | ']' :: ']' :: rest2 =>
            some ('[' :: '[' ::
              ((inner ++ ']' :: ']' :: rest).takeWhile (fun c => !(c == ']')) ++ [']', ']']), rest2)
          | _ => none := rfl
  have hie : inner.isEmpty = false := by
    cases inner with
    | nil => exact absurd rfl hne
    | cons a l => rfl
  rw [hred, h.1, h.2, hie]
  simp

/-- Unfolding of the scanner at positive fuel on a nonempty text. -/
theorem wikiGo_succ_cons (f : List Char → List Char) (fuel : Nat) (c : Char)
    (cs : List Char) :
    wikiGo f (fuel + 1) (c :: cs)
      = match tryMatch (c :: cs) with
        | some (m, rest) => f m ++ wikiGo f fuel rest
        | none => c :: wikiGo f fuel cs := rfl

/-- The scanner returns the empty text unchanged at any fuel. -/
theorem wikiGo_nil (f : List Char → List Char) (fuel : Nat) :
    wikiGo f fuel [] = [] := by
  cases fuel <;> rfl

/-- The scanner copies a bracket-free block verbatim, consuming fuel
one character at a time. -/
theorem wikiGo_skip (f : List Char → List Char) :
    ∀ (pre : List Char), '[' ∉ pre → ∀ (fuel : Nat) (rest : List Char),
      wikiGo f (pre.length + fuel) (pre ++ rest) = pre ++ wikiGo f fuel rest
  | [], _, fuel, rest => by simp
  | c :: pre, h, fuel, rest => by
    have hc : c ≠ '[' := fun he => h (he ▸ List.mem_cons_self c pre)
    have hlen : (c :: pre).length + fuel = (pre.length + fuel) + 1 := by
      simp only [List.length_cons]
      omega
    rw [hlen, List.cons_append, wikiGo_succ_cons,
      tryMatch_none_head (pre ++ rest) hc]
    show c :: wikiGo f (pre.length + fuel) (pre ++ rest) = (c :: pre) ++ wikiGo f fuel rest
    rw [List.cons_append,
      wikiGo_skip f pre (fun hm => h (List.mem_cons_of_mem c hm)) fuel rest]

/-- At a match position the scanner emits the callback's output and
continues after the match. -/
theorem wikiGo_match (f : List Char → List Char) (fuel : Nat) {l m rest : List Char}
    (h : tryMatch l = some (m, rest)) (hne : l ≠ []) :
    wikiGo f (fuel + 1) l = f m ++ wikiGo f fuel rest := by
  cases l with
  | nil => exact absurd rfl hne
  | cons c cs =>
    rw [wikiGo_succ_cons, h]

/-- Text assembled from plain-prose/wikilink chunks followed by a
trailing plain segment: chunk `(plain, inner)` contributes
`plain ++ "[[" ++ inner ++ "]]"`. -/
def assembleText : List (String × String) → String → String
  | [], trailing => trailing
  | (plain, inner) :: chunks, trailing =>
    plain ++ "[[" ++ inner ++ "]]" ++ assembleText chunks trailing

/-- The character-level result of replacing every assembled wikilink
through `f`, keeping the plain segments verbatim. -/
def replacedChunks (f : List Char → List Char) :
    List (String × String) → String → List Char
  | [], trailing => trailing.data
  | (plain, inner) :: chunks, trailing =>
    plain.data ++ f ('[' :: '[' :: (inner.data ++ [']', ']']))
      ++ replacedChunks f chunks trailing

/-- Result of rewriting an assembled text with the two wikilink
templates: each link is replaced by `wikiMatchReplace` of its match,
the prose is kept. -/
def renderedText (wt nt : String) (idx : List (String × Doc)) :
    List (String × String) → String → String
  | [], trailing => trailing
  | (plain, inner) :: chunks, trailing =>
    plain ++ String.mk (wikiMatchReplace wt nt idx ('[' :: '[' :: (inner.data ++ [']', ']'])))
      ++ renderedText wt nt idx chunks trailing

/-- Fuel consumed by the scanner on the chunk skeleton. -/
def chunksFuel : List (String × String) → Nat
  | [] => 0
  | (plain, _) :: chunks => plain.data.length + 1 + chunksFuel chunks

/-- A chunk list is well formed when its prose holds no opening
bracket and each link's inner text is nonempty without closing
brackets. -/
abbrev ChunksWF (chunks : List (String × String)) : Prop :=
  ∀ pi ∈ chunks, '[' ∉ pi.1.data ∧ pi.2.data ≠ [] ∧ ']' ∉ pi.2.data

theorem assembleText_cons_data (plain inner : String)
    (chunks : List (String × String)) (trailing : String) :
    (assembleText ((plain, inner) :: chunks) trailing).data
      = plain.data ++ ('[' :: '[' ::
          (inner.data ++ ']' :: ']' :: (assembleText chunks trailing).data)) := by
  show (plain ++ "[[" ++ inner ++ "]]" ++ assembleText chunks trailing).data = _
  simp

/-- The scanner rewrites an assembled text chunk by chunk, given
enough fuel. -/
theorem wikiGo_chunks (f : List Char → List Char) :
    ∀ (chunks : List (String × String)) (trailing : String) (fuel : Nat),
      ChunksWF chunks → '[' ∉ trailing.data →
      wikiGo f (chunksFuel chunks + trailing.data.length + fuel)
          (assembleText chunks trailing).data
        = replacedChunks f chunks trailing
  | [], trailing, fuel, _, htr => by
    show wikiGo f (0 + trailing.data.length + fuel) trailing.data = trailing.data
    have h0 : (0 : Nat) + trailing.data.length + fuel = trailing.data.length + fuel := by
      omega
    have hskip := wikiGo_skip f trailing.data htr fuel []
    rw [List.append_nil] at hskip
    rw [h0, hskip, wikiGo_nil, List.append_nil]
  | (plain, inner) :: chunks, trailing, fuel, hw, htr => by
    obtain ⟨hp, hine, hinb⟩ := hw (plain, inner) (List.mem_cons_self _ _)
    have hwrest : ChunksWF chunks := fun pi hpi => hw pi (List.mem_cons_of_mem _ hpi)
    have hfuel : chunksFuel ((plain, inner) :: chunks) + trailing.data.length + fuel
        = plain.data.length + ((chunksFuel chunks + trailing.data.length + fuel) + 1) := by
      show plain.data.length + 1 + chunksFuel chunks + trailing.data.length + fuel = _
      omega
    rw [assembleText_cons_data, hfuel, wikiGo_skip f plain.data hp _ _,
      wikiGo_match f _ (tryMatch_wellformed inner.data _ hine hinb) (by simp),
      wikiGo_chunks f chunks trailing fuel hwrest htr]
    show plain.data ++ (f ('[' :: '[' :: (inner.data ++ [']', ']']))
        ++ replacedChunks f chunks trailing) = _
    simp [replacedChunks, List.append_assoc]

/-- The skeleton fuel never exceeds the assembled length. -/
theorem chunksFuel_le : ∀ (chunks : List (String × String)) (trailing : String),
    chunksFuel chunks + trailing.data.length ≤ (assembleText chunks trailing).data.length
  | [], trailing => by
    show 0 + trailing.data.length ≤ trailing.data.length
    omega
  | (plain, inner) :: chunks, trailing => by
    have ih := chunksFuel_le chunks trailing
    have hd := assembleText_cons_data plain inner chunks trailing
    have hlen : (assembleText ((plain, inner) :: chunks) trailing).data.length
        = plain.data.length + (inner.data.length + (assembleText chunks trailing).data.length + 4) := by
      rw [hd]
      simp
      omega
    show plain.data.length + 1 + chunksFuel chunks + trailing.data.length ≤ _
    rw [hlen]
    omega

theorem renderedText_data (wt nt : String) (idx : List (String × Doc)) :
    ∀ (chunks : List (String × String)) (trailing : String),
      (renderedText wt nt idx chunks trailing).data
        = replacedChunks (wikiMatchReplace wt nt idx) chunks trailing
  | [], trailing => rfl
  | (plain, inner) :: chunks, trailing => by
    show (plain ++ String.mk (wikiMatchReplace wt nt idx ('[' :: '[' :: (inner.data ++ [']', ']'])))
        ++ renderedText wt nt idx chunks trailing).data = _
    simp [replacedChunks, renderedText_data wt nt idx chunks trailing]

/-- The rewrite of a whole assembled text: prose verbatim, each match
replaced through the closure. -/
theorem render_wikilinks_chunks (wt nt : String) (idx : List (String × Doc))
    (chunks : List (String × String)) (trailing : String)
    (hw : ChunksWF chunks) (htr : '[' ∉ trailing.data) :
    render_wikilinks_with_template (assembleText chunks trailing) wt nt idx
      = renderedText wt nt idx chunks trailing := by
  unfold render_wikilinks_with_template wikiReplaceAll
  have hle := chunksFuel_le chunks trailing
  have heq : (assembleText chunks trailing).data.length + 1
      = chunksFuel chunks + trailing.data.length
        + ((assembleText chunks trailing).data.length + 1
            - (chunksFuel chunks + trailing.data.length)) := by omega
  rw [heq, wikiGo_chunks _ chunks trailing _ hw htr,
    ← renderedText_data wt nt idx chunks trailing]

/-! ### Claim C8 -/

/-- C8: on any text that is not a lone transclude line, stripping
replaces every inline wikilink by its plain display text — the segment
after the pipe when present, the target text otherwise — with no index
lookup in sight; on the spec's example, `[[a|B]] text` becomes
`B text`. -/
theorem c8_strip_wikilinks_spec :
    (∀ t : String, isTransclude t = false →
        strip_wikilinks t = strip_inline_wikilinks t)
    ∧ strip_wikilinks "[[a|B]] text" = "B text"
    ∧ strip_wikilinks "This is a [[wikilink]] and a [[link|Custom Text]]."
        = "This is a wikilink and a Custom Text." := by
  refine ⟨?_, by decide, by decide⟩
  intro t h
  unfold strip_wikilinks strip_inline_wikilinks
  have hrep : transcludeReplace t.data = t.data := by
    unfold transcludeReplace
    unfold isTransclude at h
    cases hm : tryMatch t.data with
    | none => rfl
    | some r =>
      obtain ⟨m, rest⟩ := r
      rw [hm] at h
      change rest.isEmpty = false at h
      change (if rest.isEmpty = true then [] else t.data) = t.data
      simp [h]
  rw [hrep]

/-- C8, witness: a text with surrounding prose is not a transclude, so
the conditional part applies to it. -/
theorem c8_strip_wikilinks_spec_witness :
    strip_wikilinks "x [[a|B]] y" = strip_inline_wikilinks "x [[a|B]] y" :=
  c8_strip_wikilinks_spec.1 "x [[a|B]] y" (by decide)

/-! ### Claim C4 -/

/-- C4: for every text assembled from arbitrarily many wikilinks in
otherwise bracket-free prose, every index, and every pair of
templates, the rewrite keeps the prose verbatim and replaces each
match by `wikiMatchReplace` of it; a match whose slug is a key of the
index becomes the `wikilink` template rendered with the matched doc's
`output_path`, `title` and `summary` plus the link's `text` and
`slug`, a match whose slug is absent becomes the `nolink` fallback
rendered with `text` and `slug` only — never an error; the repo's own
two-link example with one resolved and one dangling link evaluates
accordingly for arbitrary templates and docs. -/
theorem c4_render_wikilinks_templates :
    (∀ (wt nt : String) (idx : List (String × Doc)) (chunks : List (String × String))
        (trailing : String),
        ChunksWF chunks → '[' ∉ trailing.data →
        render_wikilinks_with_template (assembleText chunks trailing) wt nt idx
          = renderedText wt nt idx chunks trailing)
    ∧ (∀ (wt nt : String) (idx : List (String × Doc)) (m : List Char) (doc : Doc),
        idx.lookup (parse_wikilink m).slug = some doc →
        wikiMatchReplace wt nt idx m
          = (render wt [("output_path", doc.output_path), ("title", doc.title),
              ("summary", doc.summary), ("text", (parse_wikilink m).text),
              ("slug", (parse_wikilink m).slug)]).data)
    ∧ (∀ (wt nt : String) (idx : List (String × Doc)) (m : List Char),
        idx.lookup (parse_wikilink m).slug = none →
        wikiMatchReplace wt nt idx m
          = (render nt [("text", (parse_wikilink m).text),
              ("slug", (parse_wikilink m).slug)]).data)
    ∧ (∀ (wt nt : String) (d : Doc),
        render_wikilinks_with_template "This is a [[wikilink]] and a [[link|Custom Text]]."
            wt nt [("wikilink", d)]
          = "This is a " ++ render wt [("output_path", d.output_path), ("title", d.title),
              ("summary", d.summary), ("text", "wikilink"), ("slug", "wikilink")]
            ++ " and a " ++ render nt [("text", "Custom Text"), ("slug", "link")] ++ ".") := by
  refine ⟨render_wikilinks_chunks, ?_, ?_, ?_⟩
  · intro wt nt idx m doc h
    unfold wikiMatchReplace
    rw [h]
  · intro wt nt idx m h
    unfold wikiMatchReplace
    rw [h]
  · intro wt nt d
    have htext : assembleText [("This is a ", "wikilink"), (" and a ", "link|Custom Text")] "."
        = "This is a [[wikilink]] and a [[link|Custom Text]]." := by decide
    have hgen := render_wikilinks_chunks wt nt [("wikilink", d)]
      [("This is a ", "wikilink"), (" and a ", "link|Custom Text")] "."
      (by decide) (by decide)
    rw [htext] at hgen
    rw [hgen]
    have h1 : wikiMatchReplace wt nt [("wikilink", d)]
        ['[', '[', 'w', 'i', 'k', 'i', 'l', 'i', 'n', 'k', ']', ']']
        = (render wt [("output_path", d.output_path), ("title", d.title),
            ("summary", d.summary), ("text", "wikilink"), ("slug", "wikilink")]).data := rfl
    have h2 : wikiMatchReplace wt nt [("wikilink", d)]
        ['[', '[', 'l', 'i', 'n', 'k', '|', 'C', 'u', 's', 't', 'o', 'm', ' ',
         'T', 'e', 'x', 't', ']', ']']
        = (render nt [("text", "Custom Text"), ("slug", "link")]).data := rfl
    apply String.ext
    simp [renderedText, h1, h2]

/-- C4, witness: the general chunk theorem applied to a one-link text,
the linked branch applied to a found slug, and the fallback branch
applied to an empty index, all at concrete inputs. -/
theorem c4_render_wikilinks_templates_witness :
    render_wikilinks_with_template (assembleText [("See ", "Page Name")] "!") "w" "n" []
      = renderedText "w" "n" [] [("See ", "Page Name")] "!"
    ∧ wikiMatchReplace "w" "n" [("page-name", docB)] ("[[Page Name]]".data)
      = (render "w" [("output_path", docB.output_path), ("title", docB.title),
          ("summary", docB.summary), ("text", "Page Name"), ("slug", "page-name")]).data
    ∧ wikiMatchReplace "w" "n" [] ("[[Page Name]]".data)
      = (render "n" [("text", "Page Name"), ("slug", "page-name")]).data :=
  ⟨c4_render_wikilinks_templates.1 "w" "n" [] [("See ", "Page Name")] "!"
      (by decide) (by decide),
   c4_render_wikilinks_templates.2.1 "w" "n" [("page-name", docB)]
      ("[[Page Name]]".data) docB (by decide),
   c4_render_wikilinks_templates.2.2.1 "w" "n" [] ("[[Page Name]]".data) (by decide)⟩

end Lettersmith
